import Mathlib

/-!
Verification of the EEVAN analysis pipeline (src/src/App.tsx and the unnamed
variant src/unnamed/part_000). The statistical core is embedded shallowly:

* numeric data series are `List ℚ` (every concrete input the dashboard handles
  is a finite decimal, hence rational); derived statistics that involve
  `Math.sqrt`/`Math.exp` live in `ℝ`;
* JS `Array.prototype.sort` (stable) is modeled as the lexicographic sort on
  (value, original index) via `List.insertionSort`, which is deterministic and
  agrees with any stable sort because decorated keys are distinct;
* the single place where an IEEE NaN is actually produced and consumed by the
  report (`std` with fewer than two observations: `0/0` under the square root)
  is modeled explicitly with `Option`; other NaN corners (ragged inputs,
  datasets missing a condition column entirely) are noted at the definitions
  and lie outside the claims;
* `while` loops are compiled to structurally recursive functions with a fuel
  argument equal to the list length, which the loop never exhausts.
-/

namespace Eevan

/-- Arithmetic mean, from the source: `arr.reduce((s, v) => s + v, 0) / arr.length`.
On the empty list Lean gives `0 / 0 = 0` where JS gives NaN; all uses below
either guard emptiness or record the NaN case separately. -/
def mean (arr : List ℚ) : ℚ := arr.sum / arr.length

/-- Sum of squared deviations from the mean,
`arr.reduce((s, v) => s + (v - m) ** 2, 0)`, shared by `std`,
`shapiroWilkTest`, `pairedTTest` and `cohensD` in the source. -/
def sumSqDev (arr : List ℚ) : ℚ := (arr.map fun v => (v - mean arr) ^ 2).sum

/-- Sample standard deviation `std` from the source:
`Math.sqrt(arr.reduce((s, v) => s + (v - m) ** 2, 0) / (arr.length - 1))`.
For `n ≤ 1` the JS computation yields NaN (`0/0` when `n = 1` — the numerator
is exactly 0 and the denominator is 0 — and a NaN mean propagated when
`n = 0`); `none` models that NaN. For `n ≥ 2` the radicand is an ordinary
nonnegative rational and the result is a real number. -/
noncomputable def std (arr : List ℚ) : Option ℝ :=
  if arr.length ≤ 1 then none
  else some (Real.sqrt ((sumSqDev arr / ((arr.length : ℚ) - 1) : ℚ) : ℝ))

/-- The fixed Shapiro–Wilk coefficient table `a` from the source
(calibrated for n ≈ 10). -/
def swCoeffs : List ℚ := [0.5739, 0.3291, 0.2141, 0.1224, 0.0399]

/-- Ascending value sort `[...data].sort((a, b) => a - b)`. -/
def sortAsc (data : List ℚ) : List ℚ := List.insertionSort (· ≤ ·) data

/-- The `for` loop of `shapiroWilkTest`:
`numerator += a[i] * (sorted[n - 1 - i] - sorted[i])` for
`i < Math.min(5, Math.floor(n / 2))`. -/
def swNumerator (data : List ℚ) : ℚ :=
  let n := data.length
  let sorted := sortAsc data
  ∑ i ∈ Finset.range (min 5 (n / 2)),
    swCoeffs.getD i 0 * (sorted.getD (n - 1 - i) 0 - sorted.getD i 0)

/-- The result of shapiroWilkTest. `W` is `none` exactly when the JS
computation produces NaN: the denominator `Math.sqrt(Σ (v - m) ** 2)` is 0
precisely for a zero-variance (constant or empty) series, and then the
numerator is 0 as well (all sorted tail-pair differences vanish), so
`W = (0/0) ** 2 = NaN`. -/
structure ShapiroResult where
  W : Option ℝ
  p : ℝ

open Classical in
/-- The step table of shapiroWilkTest:
`W > 0.95 ? 0.7 : W > 0.90 ? 0.2 : W > 0.85 ? 0.05 : 0.01`. -/
noncomputable def swStep (W : ℝ) : ℝ :=
  if W > 0.95 then 0.7 else if W > 0.90 then 0.2 else if W > 0.85 then 0.05 else 0.01

/-- shapiroWilkTest from the source: `W = (numerator / denom) ** 2` with
`denom = Math.sqrt(Σ (v - m) ** 2)`, and the step-table p-value. On a
zero-variance series the source computes `W = (0/0) ** 2 = NaN` (modeled
`none`); every comparison against NaN is false, so `p` falls through the
whole step table to 0.01, exactly as modeled. -/
noncomputable def shapiroWilkTest (data : List ℚ) : ShapiroResult :=
  if sumSqDev data = 0 then ⟨none, 0.01⟩
  else
    let W : ℝ := ((swNumerator data : ℝ) / Real.sqrt ((sumSqDev data : ℚ) : ℝ)) ^ 2
    ⟨some W, swStep W⟩

/-- The polynomial factor of normalCDF:
`0.3193815 + t * (-0.3565638 + t * (1.781478 + t * (-1.821256 + t * 1.330274)))`. -/
def ncPoly (t : ℝ) : ℝ :=
  0.3193815 + t * (-0.3565638 + t * (1.781478 + t * (-1.821256 + t * 1.330274)))

/-- The `prob` value of normalCDF: `d * t * (polynomial)` with
`t = 1 / (1 + 0.2316419 * |x|)` and `d = 0.3989423 * exp(-x²/2)`. -/
noncomputable def ncProb (x : ℝ) : ℝ :=
  (0.3989423 * Real.exp (-(x * x) / 2)) * (1 / (1 + 0.2316419 * |x|)) *
    ncPoly (1 / (1 + 0.2316419 * |x|))

open Classical in
/-- normalCDF from the source (Abramowitz–Stegun style polynomial
approximation of the standard normal CDF): `x ≥ 0 ? 1 - prob : prob`. -/
noncomputable def normalCDF (x : ℝ) : ℝ :=
  if x ≥ 0 then 1 - ncProb x else ncProb x

structure TTestResult where
  t : ℝ
  df : ℤ
  p : ℝ
  meanDiff : ℚ
  sdDiff : ℝ

/-- pairedTTest from the source. The JS difference loop
`a.map((v, i) => v - b[i])` is embedded as `zipWith` (on the equal-length
inputs of the claims the two coincide; a ragged `a` longer than `b` would
produce NaN differences in JS, outside the claims). -/
noncomputable def pairedTTest (a b : List ℚ) : TTestResult :=
  let diffs := List.zipWith (· - ·) a b
  let n := diffs.length
  let meanDiff := mean diffs
  let sdDiff : ℝ := Real.sqrt ((sumSqDev diffs / ((n : ℚ) - 1) : ℚ) : ℝ)
  let t : ℝ := (meanDiff : ℝ) / (sdDiff / Real.sqrt (n : ℝ))
  ⟨t, (n : ℤ) - 1,
    2 * (1 - normalCDF (|t| * Real.sqrt ((n : ℝ) / ((n : ℝ) - 1)))),
    meanDiff, sdDiff⟩

/-- cohensD from the source: `mean(diffs) / Math.sqrt(Σ (v - m) ** 2 / diffs.length)` —
note the division by `diffs.length`, not `diffs.length - 1`. -/
noncomputable def cohensD (a b : List ℚ) : ℝ :=
  let diffs := List.zipWith (· - ·) a b
  (mean diffs : ℝ) / Real.sqrt ((sumSqDev diffs / (diffs.length : ℚ) : ℚ) : ℝ)

/-- The fixed tie/zero epsilon `1e-10` of wilcoxonSignedRank. -/
def tieEps : ℚ := 1 / 10000000000

/-- One entry of the `items` array of wilcoxonSignedRank:
`{val, sign, idx, rank}`. -/
structure WItem where
  val : ℚ
  sign : ℤ
  idx : ℕ
  rank : ℚ
  deriving DecidableEq

/-- `absDiffs.map((val, idx) => ({val, sign: nonZero[idx] > 0 ? 1 : -1, idx, rank: 0}))`. -/
def wilcoxonItems (nonZero : List ℚ) : List WItem :=
  nonZero.enum.map fun q => ⟨|q.2|, if 0 < q.2 then 1 else -1, q.1, 0⟩

/-- `items.sort((x, y) => x.val - y.val)`: a stable sort by `val`, modeled as
the lexicographic sort on (val, original idx); the decorated keys are distinct,
so this is exactly what any stable sort produces. -/
def sortWItems (items : List WItem) : List WItem :=
  List.insertionSort (fun x y => x.val < y.val ∨ (x.val = y.val ∧ x.idx ≤ y.idx)) items

/-- The rank-assignment `while` loop of wilcoxonSignedRank: walk runs of values
within `1e-10` of the run head, give every member the average of the ranks the
run occupies, and continue after the run (`takeWhile`/`dropWhile` with the loop
condition `|items[j].val - items[i].val| < 1e-10`, which stops at the first
failure exactly like the `while`). The fuel argument (instantiated with the
list length, which the loop never exhausts since each run is nonempty) makes
the recursion structural. -/
def assignRanksFuel : ℕ → ℚ → List WItem → List WItem
  | 0, _, _ => []
  | _ + 1, _, [] => []
  | fuel + 1, rank, x :: xs =>
    let run := (x :: xs).takeWhile fun it => |it.val - x.val| < tieEps
    let avgRank := (rank + (rank + (run.length : ℚ) - 1)) / 2
    run.map (fun it => ⟨it.val, it.sign, it.idx, avgRank⟩) ++
      assignRanksFuel fuel (rank + run.length)
        ((x :: xs).dropWhile fun it => |it.val - x.val| < tieEps)

/-- The filtered difference list of wilcoxonSignedRank:
`diffs.filter(d => Math.abs(d) > 1e-10)`. -/
def wilcoxonNonZero (a b : List ℚ) : List ℚ :=
  (List.zipWith (· - ·) a b).filter fun d => tieEps < |d|

/-- The fully ranked item list of wilcoxonSignedRank. -/
def wilcoxonRanked (a b : List ℚ) : List WItem :=
  let items := sortWItems (wilcoxonItems (wilcoxonNonZero a b))
  assignRanksFuel items.length 1 items

/-- `W⁺`: `items.filter(it => it.sign > 0).reduce((s, it) => s + it.rank, 0)`. -/
def wilcoxonWPlus (a b : List ℚ) : ℚ :=
  (((wilcoxonRanked a b).filter fun it => 0 < it.sign).map WItem.rank).sum

/-- `expectedW = n * (n + 1) / 4`. -/
def expectedWOf (n : ℕ) : ℚ := n * (n + 1) / 4

/-- `varW = n * (n + 1) * (2 * n + 1) / 24`. -/
def varWOf (n : ℕ) : ℚ := n * (n + 1) * (2 * n + 1) / 24

structure WilcoxonResult where
  W : ℚ
  z : ℝ
  p : ℝ
  n : ℕ

/-- wilcoxonSignedRank from the source: drop differences with `|d| ≤ 1e-10`,
midrank the surviving absolute differences, `W⁺` = rank sum of the positive
ones, then the continuity-corrected standardization
`z = (W⁺ - E[W] - (W⁺ > E[W] ? 0.5 : -0.5)) / √Var` and the two-tailed normal
p-value. Returns `{W: 0, z: 0, p: 1, n: 0}` when nothing survives. -/
noncomputable def wilcoxonSignedRank (a b : List ℚ) : WilcoxonResult :=
  let n := (wilcoxonNonZero a b).length
  if n = 0 then ⟨0, 0, 1, 0⟩
  else
    let wPlus : ℚ := wilcoxonWPlus a b
    let z : ℝ := ((wPlus : ℝ) - (expectedWOf n : ℝ) -
      (if expectedWOf n < wPlus then (0.5 : ℝ) else -0.5)) / Real.sqrt (varWOf n : ℝ)
    ⟨wPlus, z, 2 * (1 - normalCDF |z|), n⟩

/-- The `ranks` helper of spearmanCorrelation: decorate each value with its
index, stable-sort by value (lexicographic on (value, index), see
`sortWItems`), assign rank = sorted position + 1 — ties are NOT averaged —
and restore input order. -/
def ranks (arr : List ℚ) : List ℕ :=
  let sortedPairs :=
    List.insertionSort (fun x y => x.2 < y.2 ∨ (x.2 = y.2 ∧ x.1 ≤ y.1)) arr.enum
  let withRank := sortedPairs.enum.map fun q => (q.2.1, q.1 + 1)
  (List.insertionSort (fun x y => x.1 ≤ y.1) withRank).map Prod.snd

/-- Mean of a rank list (the JS code applies `mean` to the rank arrays). -/
def rankMean (r : List ℕ) : ℚ := mean (r.map fun v : ℕ => (v : ℚ))

/-- `rx.reduce((s, r, i) => s + (r - meanRx) * (ry[i] - meanRy), 0)`. -/
def spearmanCov (x y : List ℚ) : ℚ :=
  let rx := ranks x
  let ry := ranks y
  ∑ i ∈ Finset.range rx.length,
    ((rx.getD i 0 : ℚ) - rankMean rx) * ((ry.getD i 0 : ℚ) - rankMean ry)

/-- `r.reduce((s, v) => s + (v - meanR) ** 2, 0)` on a rank list. -/
def rankVar (r : List ℕ) : ℚ :=
  (r.map fun v : ℕ => ((v : ℚ) - rankMean r) ^ 2).sum

/-- spearmanCorrelation from the source: Pearson correlation of the two rank
series, `cov / Math.sqrt(varx * vary)`. -/
noncomputable def spearmanCorrelation (x y : List ℚ) : ℝ :=
  ((spearmanCov x y : ℚ) : ℝ) /
    Real.sqrt ((rankVar (ranks x) * rankVar (ranks y) : ℚ) : ℝ)

structure ChiSquareResult where
  chiSq : ℚ
  df : ℤ
  p : ℚ

/-- chiSquareTest from the source: `(observed[i] - expected[i])² / expected[i]`
summed over the indices with `expected[i] > 0` (`continue` contributes 0),
`df = k - 1`, and the fixed critical-value ladder for `p`. The claims feed
equal-length lists; a ragged `observed` longer than `expected` would produce
NaN in JS, outside the claims. -/
def chiSquareTest (observed expected : List ℚ) : ChiSquareResult :=
  let chiSq : ℚ := ∑ i ∈ Finset.range observed.length,
    if expected.getD i 0 ≤ 0 then 0
    else (observed.getD i 0 - expected.getD i 0) ^ 2 / expected.getD i 0
  ⟨chiSq, (observed.length : ℤ) - 1,
    if chiSq > 9.21 then 0.01
    else if chiSq > 5.99 then 0.05
    else if chiSq > 4.61 then 0.1
    else 0.2⟩

/-- One raw trial row. The seven normalized per-emotion columns are modeled as
fields (the canonical `*_norm` column names of the `hasNorm` branch of
processedData; the alias/lowercase lookup resolves to these on the data the
claims range over). -/
structure Trial where
  participant : String
  condition : String
  angry : ℚ
  disgusted : ℚ
  fearful : ℚ
  happy : ℚ
  neutral : ℚ
  sad : ℚ
  surprised : ℚ
  deriving DecidableEq

/-- `Array.from(new Set(...))`: deduplication keeping first occurrences in
encounter order. -/
def uniq (l : List String) : List String :=
  l.foldl (fun acc a => if a ∈ acc then acc else acc ++ [a]) []

/-- `rawGrouped.filter(r => r.Participant === p && r.Condition === c)`. -/
def trialRows (trials : List Trial) (p c : String) : List Trial :=
  trials.filter fun r => r.participant = p ∧ r.condition = c

/-- The `avg(col)` helper: arithmetic mean of one column over the selected rows. -/
def colMean (rows : List Trial) (f : Trial → ℚ) : ℚ := mean (rows.map f)

/-- The aggregate percentage stored in `row[c]` for one (participant,
condition) cell: per-emotion means across trials, non-neutral sum, then
`/ 120 * 100`. An empty cell (no matching rows) stores 0. -/
def condAggregate (trials : List Trial) (p c : String) : ℚ :=
  let rows := trialRows trials p c
  if rows = [] then 0
  else
    (colMean rows Trial.angry + colMean rows Trial.disgusted +
      colMean rows Trial.fearful + colMean rows Trial.happy +
      colMean rows Trial.sad + colMean rows Trial.surprised) / 120 * 100

/-- One participant record. `C1`/`C2` carry the value the report reads:
`row[c]` when condition `c` occurs in the dataset, and the `?? 0` default
(used by the delta expression) when it does not — in both cases equal to
`condAggregate`, which is 0 for an empty cell. -/
structure ProcessedRow where
  participant : String
  C1 : ℚ
  C2 : ℚ
  delta : ℚ
  deriving DecidableEq

/-- Assembly of one row of processedData:
`row.delta = (row['C1'] ?? 0) - (row['C2'] ?? 0)`. -/
def rowFor (trials : List Trial) (p : String) : ProcessedRow :=
  ⟨p, condAggregate trials p "C1", condAggregate trials p "C2",
    condAggregate trials p "C1" - condAggregate trials p "C2"⟩

/-- processedData from the source: one record per distinct participant in
encounter order. -/
def processedData (trials : List Trial) : List ProcessedRow :=
  (uniq (trials.map Trial.participant)).map (rowFor trials)

structure DescStats where
  mean : ℚ
  std : Option ℝ
  min : Option ℚ
  max : Option ℚ

structure StatsBlock where
  C1 : DescStats
  C2 : DescStats
  Delta : DescStats

/-- The `stats` memo of the source, rows-present path (the aggregated-CSV
fallback is a separate degraded input path not exercised by the claims):
descriptive mean/std/min/max for the C1, C2 and delta series, `null` (`none`)
without rows. The `std` sub-fields carry the NaN-modeling `Option` of `std`. -/
noncomputable def statsOf (rows : List ProcessedRow) : Option StatsBlock :=
  if rows = [] then none
  else
    let c1vals := rows.map ProcessedRow.C1
    let c2vals := rows.map ProcessedRow.C2
    let deltas := rows.map ProcessedRow.delta
    some ⟨⟨mean c1vals, std c1vals, c1vals.min?, c1vals.max?⟩,
      ⟨mean c2vals, std c2vals, c2vals.min?, c2vals.max?⟩,
      ⟨mean deltas, std deltas, deltas.min?, deltas.max?⟩⟩

/-- The tagged main-test result: the `type: 't' | 'wilcoxon'` union the
orchestrator returns, with the spread test record and the effect size. -/
inductive MainTestResult where
  | t (res : TTestResult) (effectSize : ℝ)
  | wilcoxon (res : WilcoxonResult) (effectSize : ℝ)

/-- The `mainTest` memo of the source: `null` without records; otherwise run
Shapiro–Wilk on the delta series and branch on `p > 0.05` between the paired
t-test (with Cohen's d) and the Wilcoxon signed-rank test (with
`r = z / Math.sqrt(processedData.length)` — the ORIGINAL record count, not the
post-exclusion n). -/
noncomputable def mainTest (rows : List ProcessedRow) : Option MainTestResult :=
  if rows = [] then none
  else
    let c1 := rows.map ProcessedRow.C1
    let c2 := rows.map ProcessedRow.C2
    let sh := shapiroWilkTest (rows.map ProcessedRow.delta)
    if sh.p > 0.05 then some (.t (pairedTTest c1 c2) (cohensD c1 c2))
    else some (.wilcoxon (wilcoxonSignedRank c1 c2)
      ((wilcoxonSignedRank c1 c2).z / Real.sqrt (rows.length : ℝ)))

/-! ### Generic helper lemmas -/

lemma sumSqDev_nonneg (arr : List ℚ) : 0 ≤ sumSqDev arr := by
  unfold sumSqDev
  apply List.sum_nonneg
  intro x hx
  simp only [List.mem_map] at hx
  obtain ⟨v, _, rfl⟩ := hx
  positivity

/-! ### C7: Cohen's d uses the population (uncorrected n) denominator -/

/-- Modelled from the spec side for comparison: population standard deviation
`sqrt(Σ(x - mean)² / n)` with the uncorrected `n` denominator. -/
noncomputable def populationStd (arr : List ℚ) : ℝ :=
  Real.sqrt ((sumSqDev arr / (arr.length : ℚ) : ℚ) : ℝ)

/-- C7: paired Cohen's d equals mean(d) divided by the population standard
deviation of d = a − b (denominator `sqrt(Σ(d - mean d)² / n)` with the
uncorrected n). At d = [1, 3] the value is 2, and it differs from the
Bessel-corrected quotient mean/sample-std (= √2) at that input. -/
theorem cohensD_population_denominator :
    (∀ a b : List ℚ, cohensD a b =
      ((mean (List.zipWith (· - ·) a b) : ℚ) : ℝ) /
        populationStd (List.zipWith (· - ·) a b)) ∧
    cohensD [1, 3] [0, 0] = 2 ∧
    cohensD [1, 3] [0, 0] ≠
      ((mean (List.zipWith (· - ·) [1, 3] [0, 0]) : ℚ) : ℝ) /
        Real.sqrt ((sumSqDev (List.zipWith (· - ·) [1, 3] [0, 0]) /
          (((List.zipWith (· - ·) [1, 3] [0, 0]).length : ℚ) - 1) : ℚ) : ℝ) := by
  refine ⟨fun a b => rfl, ?_, ?_⟩
  · show (mean [(1 : ℚ) - 0, 3 - 0] : ℝ) /
      Real.sqrt ((sumSqDev [(1 : ℚ) - 0, 3 - 0] / (([(1 : ℚ) - 0, 3 - 0].length : ℚ)) : ℚ) : ℝ) = 2
    norm_num [mean, sumSqDev]
  · show (mean [(1 : ℚ) - 0, 3 - 0] : ℝ) /
      Real.sqrt ((sumSqDev [(1 : ℚ) - 0, 3 - 0] / (([(1 : ℚ) - 0, 3 - 0].length : ℚ)) : ℚ) : ℝ) ≠ _
    norm_num [mean, sumSqDev]
    intro h
    have h2 : Real.sqrt 2 = 1 := by
      have hs : (0 : ℝ) ≤ 2 := by norm_num
      nlinarith [Real.sq_sqrt hs, Real.sqrt_nonneg (2 : ℝ), h]
    have := Real.sq_sqrt (by norm_num : (0 : ℝ) ≤ 2)
    rw [h2] at this
    norm_num at this

/-! ### C1: a singleton series gives std = NaN, and it reaches the report -/

/-- C1 (code behavior at the failing input): with exactly one participant
record the report's descriptive block is still assembled, and its standard
deviation sub-fields hold the NaN that `std` produces on a singleton series
(`0/0` under the square root, modeled as `none`) — there is no distinguishable
insufficient-data sub-state, the NaN itself occupies the report slot. -/
theorem statsOf_single_record_leaks_nan :
    statsOf [⟨"P1", 50, 30, 20⟩] ≠ none ∧
    (statsOf [⟨"P1", 50, 30, 20⟩]).bind (fun s => s.Delta.std) = none ∧
    (statsOf [⟨"P1", 50, 30, 20⟩]).bind (fun s => s.C1.std) = none ∧
    std [(20 : ℚ)] = none := by
  refine ⟨?_, ?_, ?_, ?_⟩ <;> simp [statsOf, std]

/-! ### C9: chi-square skips non-positive expected cells, ladder p-value -/

/-- C9: the chi-square statistic sums `(o - e)²/e` exactly over the indices
with positive expected frequency, `df = k - 1`, the p-value follows the fixed
four-bucket critical-value ladder, and on observed = [6, 2, 2],
expected = [3.33, 3.33, 3.33] the result is `chi_sq = 106667/33300 ≈ 3.204`
(within 0.001), `df = 2`, `p = 0.2`. -/
theorem chiSquare_skip_ladder_example :
    (∀ observed expected : List ℚ,
      (chiSquareTest observed expected).chiSq =
        ∑ i ∈ (Finset.range observed.length).filter fun i => 0 < expected.getD i 0,
          (observed.getD i 0 - expected.getD i 0) ^ 2 / expected.getD i 0) ∧
    (∀ observed expected : List ℚ,
      (chiSquareTest observed expected).df = (observed.length : ℤ) - 1) ∧
    (∀ observed expected : List ℚ,
      ((chiSquareTest observed expected).chiSq ≤ 4.61 →
        (chiSquareTest observed expected).p = 0.2) ∧
      (4.61 < (chiSquareTest observed expected).chiSq →
        (chiSquareTest observed expected).chiSq ≤ 5.99 →
        (chiSquareTest observed expected).p = 0.1) ∧
      (5.99 < (chiSquareTest observed expected).chiSq →
        (chiSquareTest observed expected).chiSq ≤ 9.21 →
        (chiSquareTest observed expected).p = 0.05) ∧
      (9.21 < (chiSquareTest observed expected).chiSq →
        (chiSquareTest observed expected).p = 0.01)) ∧
    ((chiSquareTest [6, 2, 2] [3.33, 3.33, 3.33]).chiSq = 106667 / 33300 ∧
      |(chiSquareTest [6, 2, 2] [3.33, 3.33, 3.33]).chiSq - 3.204| < 1 / 1000 ∧
      (chiSquareTest [6, 2, 2] [3.33, 3.33, 3.33]).df = 2 ∧
      (chiSquareTest [6, 2, 2] [3.33, 3.33, 3.33]).p = 0.2) := by
  have hchi : (chiSquareTest [6, 2, 2] [3.33, 3.33, 3.33]).chiSq = 106667 / 33300 := by
    norm_num [chiSquareTest, Finset.sum_range_succ]
  refine ⟨?_, fun o e => rfl, ?_, hchi, ?_, rfl, ?_⟩
  · intro observed expected
    simp only [chiSquareTest]
    rw [Finset.sum_filter]
    apply Finset.sum_congr rfl
    intro i _
    split_ifs with h h' <;> first | rfl | linarith
  · intro observed expected
    simp only [chiSquareTest]
    refine ⟨?_, ?_, ?_, ?_⟩ <;> (intros; split_ifs <;> first | rfl | linarith)
  · rw [hchi]
    rw [abs_lt]
    constructor <;> norm_num
  · norm_num [chiSquareTest, Finset.sum_range_succ]

/-- Witness for C9: the ladder conjunct applied at the concrete example —
`chi_sq = 106667/33300 ≤ 4.61` there, so `p = 0.2`. -/
theorem chiSquare_skip_ladder_example_witness :
    (chiSquareTest [6, 2, 2] [3.33, 3.33, 3.33]).p = 0.2 :=
  (chiSquare_skip_ladder_example.2.2.1 [6, 2, 2] [3.33, 3.33, 3.33]).1
    (by norm_num [chiSquareTest, Finset.sum_range_succ])

/-! ### Shapiro–Wilk helper lemmas -/

lemma shapiroWilkTest_W_eq (data : List ℚ) (h : sumSqDev data ≠ 0) :
    (shapiroWilkTest data).W = some ((swNumerator data ^ 2 / sumSqDev data : ℚ) : ℝ) := by
  have h0 : (0 : ℝ) ≤ ((sumSqDev data : ℚ) : ℝ) := by exact_mod_cast sumSqDev_nonneg data
  simp only [shapiroWilkTest]
  rw [if_neg h, div_pow, Real.sq_sqrt h0]
  push_cast
  ring_nf

lemma shapiroWilkTest_p_eq (data : List ℚ) (h : sumSqDev data ≠ 0) :
    (shapiroWilkTest data).p =
      swStep (((swNumerator data : ℝ) / Real.sqrt ((sumSqDev data : ℚ) : ℝ)) ^ 2) := by
  unfold shapiroWilkTest
  rw [if_neg h]

lemma swStep_of_le (w : ℝ) (h : w ≤ 0.85) : swStep w = 0.01 := by
  unfold swStep
  split_ifs <;> first | rfl | linarith

lemma shapiroWilkTest_p_of_W_le (data : List ℚ) (w : ℝ)
    (hW : (shapiroWilkTest data).W = some w) (h : w ≤ 0.85) :
    (shapiroWilkTest data).p = 0.01 := by
  by_cases hss : sumSqDev data = 0
  · unfold shapiroWilkTest
    rw [if_pos hss]
  · have hw2 : ((swNumerator data : ℝ) / Real.sqrt ((sumSqDev data : ℚ) : ℝ)) ^ 2 = w := by
      have := shapiroWilkTest_W_eq data hss
      rw [hW] at this
      simp only [Option.some.injEq] at this
      rw [this]
      have h0 : (0 : ℝ) ≤ ((sumSqDev data : ℚ) : ℝ) := by
        exact_mod_cast sumSqDev_nonneg data
      rw [div_pow, Real.sq_sqrt h0]
      push_cast
      ring
    rw [shapiroWilkTest_p_eq data hss, hw2]
    exact swStep_of_le w h

/-! ### C6: the W statistic is a square with the step p-value, but can exceed 1 -/

/-- C6 (counterexample): on the data vector proportional to the coefficient
table itself (ascending, mean 0, nonzero variance), the W statistic is
defined and equals `2·Σaᵢ² = 2500403/2500000 = 1.0001612 > 1`, refuting the
claimed range [0, 1]. -/
theorem shapiroWilk_W_exceeds_one :
    (shapiroWilkTest [-0.5739, -0.3291, -0.2141, -0.1224, -0.0399,
      0.0399, 0.1224, 0.2141, 0.3291, 0.5739]).W =
      some (((2500403 : ℚ) / 2500000 : ℚ) : ℝ) ∧
    (1 : ℝ) < (((2500403 : ℚ) / 2500000 : ℚ) : ℝ) := by
  constructor
  · rw [shapiroWilkTest_W_eq]
    · norm_num [swNumerator, sumSqDev, mean, sortAsc, swCoeffs,
        List.insertionSort, List.orderedInsert, Finset.sum_range_succ]
    · norm_num [sumSqDev, mean]
  · norm_num

/-- C6 (amended): on a zero-variance series (inside the claim's n ≥ 2 domain
when the data are constant) the source's W is the 0/0 NaN (modeled `none`)
and p falls through the step table to 0.01; on every other series W is
defined, is a square and hence nonnegative (but NOT bounded by 1 — see the
counterexample), and the p-value is exactly the four-step function of W:
0.7 above 0.95, 0.2 above 0.90, 0.05 above 0.85, else 0.01. -/
theorem shapiroWilk_nonneg_and_step (data : List ℚ) :
    (sumSqDev data = 0 →
      (shapiroWilkTest data).W = none ∧ (shapiroWilkTest data).p = 0.01) ∧
    (sumSqDev data ≠ 0 → ∀ w : ℝ, (shapiroWilkTest data).W = some w →
      0 ≤ w ∧
      (0.95 < w → (shapiroWilkTest data).p = 0.7) ∧
      (0.90 < w → w ≤ 0.95 → (shapiroWilkTest data).p = 0.2) ∧
      (0.85 < w → w ≤ 0.90 → (shapiroWilkTest data).p = 0.05) ∧
      (w ≤ 0.85 → (shapiroWilkTest data).p = 0.01)) := by
  constructor
  · intro hss
    unfold shapiroWilkTest
    rw [if_pos hss]
    exact ⟨rfl, rfl⟩
  · intro hss w hW
    have hWval := shapiroWilkTest_W_eq data hss
    rw [hW] at hWval
    simp only [Option.some.injEq] at hWval
    have hw0 : 0 ≤ w := by
      rw [hWval]
      have hq : (0 : ℚ) ≤ swNumerator data ^ 2 / sumSqDev data :=
        div_nonneg (sq_nonneg _) (sumSqDev_nonneg data)
      exact_mod_cast hq
    have hw2 : ((swNumerator data : ℝ) / Real.sqrt ((sumSqDev data : ℚ) : ℝ)) ^ 2 = w := by
      rw [hWval]
      have h0 : (0 : ℝ) ≤ ((sumSqDev data : ℚ) : ℝ) := by
        exact_mod_cast sumSqDev_nonneg data
      rw [div_pow, Real.sq_sqrt h0]
      push_cast
      ring
    have hp := shapiroWilkTest_p_eq data hss
    rw [hw2] at hp
    refine ⟨hw0, ?_, ?_, ?_, ?_⟩
    all_goals intros
    all_goals rw [hp]
    all_goals unfold swStep
    all_goals split_ifs <;> first | rfl | linarith

/-- Witness for C6: the series [0, 1] has nonzero variance and
`W = 0.65872242 ≤ 0.85`, so the amended theorem gives `W ≥ 0` and
`p = 0.01`; discharging every hypothesis by evaluation. -/
theorem shapiroWilk_nonneg_and_step_witness :
    0 ≤ ((swNumerator [0, 1] ^ 2 / sumSqDev [0, 1] : ℚ) : ℝ) ∧
    (shapiroWilkTest [0, 1]).p = 0.01 := by
  have hss : sumSqDev [0, 1] ≠ 0 := by norm_num [sumSqDev, mean]
  have hW := shapiroWilkTest_W_eq [0, 1] hss
  have h := (shapiroWilk_nonneg_and_step [0, 1]).2 hss _ hW
  refine ⟨h.1, h.2.2.2.2 ?_⟩
  norm_num [swNumerator, sumSqDev, mean, sortAsc, swCoeffs,
    List.insertionSort, List.orderedInsert, Finset.sum_range_succ]

/-! ### C4: main-test branching on the normality p-value -/

/-- C4: for nonempty participant records the orchestrator branches on the
Shapiro–Wilk p-value of the delta series: `p > 0.05` gives the tagged paired
t-test with Cohen's d, otherwise the tagged Wilcoxon result with effect size
`r = z / √N` where N is the record count (not the post-exclusion n). -/
theorem mainTest_branching (rows : List ProcessedRow) (h : rows ≠ []) :
    ((shapiroWilkTest (rows.map ProcessedRow.delta)).p > 0.05 →
      mainTest rows = some (MainTestResult.t
        (pairedTTest (rows.map ProcessedRow.C1) (rows.map ProcessedRow.C2))
        (cohensD (rows.map ProcessedRow.C1) (rows.map ProcessedRow.C2)))) ∧
    (¬ (shapiroWilkTest (rows.map ProcessedRow.delta)).p > 0.05 →
      mainTest rows = some (MainTestResult.wilcoxon
        (wilcoxonSignedRank (rows.map ProcessedRow.C1) (rows.map ProcessedRow.C2))
        ((wilcoxonSignedRank (rows.map ProcessedRow.C1)
          (rows.map ProcessedRow.C2)).z / Real.sqrt (rows.length : ℝ)))) := by
  unfold mainTest
  rw [if_neg h]
  constructor
  · intro hp
    rw [if_pos hp]
  · intro hp
    rw [if_neg hp]

/-- Witness for C4: two records with deltas [1, 2]; there `W ≤ 0.85`, so
`p = 0.01 ≤ 0.05` and the Wilcoxon branch is returned with `r = z / √2`. -/
theorem mainTest_branching_witness :
    mainTest [⟨"P1", 1, 0, 1⟩, ⟨"P2", 2, 0, 2⟩] = some (MainTestResult.wilcoxon
      (wilcoxonSignedRank [1, 2] [0, 0])
      ((wilcoxonSignedRank [1, 2] [0, 0]).z / Real.sqrt (2 : ℝ))) := by
  have hss : sumSqDev [1, 2] ≠ 0 := by norm_num [sumSqDev, mean]
  have hle : ((swNumerator [1, 2] ^ 2 / sumSqDev [1, 2] : ℚ) : ℝ) ≤ 0.85 := by
    norm_num [swNumerator, sumSqDev, mean, sortAsc, swCoeffs,
      List.insertionSort, List.orderedInsert, Finset.sum_range_succ]
  have hp : ¬ (shapiroWilkTest
      (([⟨"P1", 1, 0, 1⟩, ⟨"P2", 2, 0, 2⟩] : List ProcessedRow).map
        ProcessedRow.delta)).p > 0.05 := by
    have hmap : (([⟨"P1", 1, 0, 1⟩, ⟨"P2", 2, 0, 2⟩] : List ProcessedRow).map
        ProcessedRow.delta) = [1, 2] := rfl
    rw [hmap, shapiroWilkTest_p_of_W_le [1, 2] _ (shapiroWilkTest_W_eq [1, 2] hss) hle]
    norm_num
  have := (mainTest_branching [⟨"P1", 1, 0, 1⟩, ⟨"P2", 2, 0, 2⟩]
    (by simp)).2 hp
  simpa using this

/-! ### C5: the delta invariant of the Record Aggregator -/

lemma condAggregate_of_no_rows (trials : List Trial) (p c : String)
    (h : trialRows trials p c = []) : condAggregate trials p c = 0 := by
  simp [condAggregate, h]

/-- C5: every record produced by processedData satisfies
`delta = C1 aggregate - C2 aggregate` exactly, where each aggregate is the
`condAggregate` of that participant (0 for an absent condition); a participant
with trials in only one condition therefore gets `delta = ±aggregate` of the
present condition. -/
theorem processedData_delta_invariant (trials : List Trial) (row : ProcessedRow)
    (h : row ∈ processedData trials) :
    row.delta = row.C1 - row.C2 ∧
    row.C1 = condAggregate trials row.participant "C1" ∧
    row.C2 = condAggregate trials row.participant "C2" ∧
    (trialRows trials row.participant "C2" = [] →
      row.delta = condAggregate trials row.participant "C1") ∧
    (trialRows trials row.participant "C1" = [] →
      row.delta = -condAggregate trials row.participant "C2") := by
  simp only [processedData, List.mem_map] at h
  obtain ⟨p, hp, rfl⟩ := h
  refine ⟨rfl, rfl, rfl, ?_, ?_⟩
  · intro hc
    show condAggregate trials p "C1" - condAggregate trials p "C2" = _
    rw [condAggregate_of_no_rows trials p "C2" hc, sub_zero]
    rfl
  · intro hc
    show condAggregate trials p "C1" - condAggregate trials p "C2" = _
    rw [condAggregate_of_no_rows trials p "C1" hc, zero_sub]
    rfl

/-- Witness for C5: a dataset with a single C1-only trial; its record has
`delta = C1 aggregate` and `delta = C1 - C2`. -/
theorem processedData_delta_invariant_witness :
    (rowFor [⟨"P1", "C1", 1, 2, 3, 4, 5, 6, 7⟩] "P1").delta =
      condAggregate [⟨"P1", "C1", 1, 2, 3, 4, 5, 6, 7⟩] "P1" "C1" ∧
    (rowFor [⟨"P1", "C1", 1, 2, 3, 4, 5, 6, 7⟩] "P1").delta =
      (rowFor [⟨"P1", "C1", 1, 2, 3, 4, 5, 6, 7⟩] "P1").C1 -
        (rowFor [⟨"P1", "C1", 1, 2, 3, 4, 5, 6, 7⟩] "P1").C2 := by
  have hmem : rowFor [⟨"P1", "C1", 1, 2, 3, 4, 5, 6, 7⟩] "P1" ∈
      processedData [⟨"P1", "C1", 1, 2, 3, 4, 5, 6, 7⟩] := by
    simp [processedData, uniq]
  have h := processedData_delta_invariant _ _ hmem
  exact ⟨h.2.2.2.1 (by simp [trialRows]), h.1⟩

/-! ### Wilcoxon helper lemmas -/

lemma wilcoxon_head_in_run (x : WItem) : |x.val - x.val| < tieEps := by
  simp only [sub_self, abs_zero, tieEps]
  norm_num

lemma dropWhile_length_le_tail (p : WItem → Bool) (x : WItem) (xs : List WItem)
    (hx : p x = true) : ((x :: xs).dropWhile p).length ≤ xs.length := by
  rw [List.dropWhile_cons_of_pos hx]
  have h := congrArg List.length (List.takeWhile_append_dropWhile (p := p) (l := xs))
  rw [List.length_append] at h
  omega

lemma assignRanksFuel_map_sign (fuel : ℕ) :
    ∀ (r : ℚ) (l : List WItem), l.length ≤ fuel →
      (assignRanksFuel fuel r l).map WItem.sign = l.map WItem.sign := by
  induction fuel with
  | zero =>
    intro r l h
    have : l = [] := List.length_eq_zero.mp (Nat.le_zero.mp h)
    subst this
    simp [assignRanksFuel]
  | succ f ih =>
    intro r l h
    match l with
    | [] => simp [assignRanksFuel]
    | x :: xs =>
      have hx : (fun it => decide (|it.val - x.val| < tieEps)) x = true := by
        simp only [decide_eq_true_eq]
        exact wilcoxon_head_in_run x
      simp only [assignRanksFuel]
      rw [List.map_append, List.map_map]
      have hlen : (((x :: xs).dropWhile fun it => decide (|it.val - x.val| < tieEps)).length
          ≤ f) := by
        have := dropWhile_length_le_tail (fun it => decide (|it.val - x.val| < tieEps)) x xs hx
        have hxs : xs.length ≤ f := by
          simpa using Nat.le_of_succ_le_succ (by simpa using h)
        omega
      rw [ih _ _ hlen]
      have hcomp : (WItem.sign ∘ fun it : WItem =>
          (⟨it.val, it.sign, it.idx,
            (r + (r + (((x :: xs).takeWhile fun it =>
              decide (|it.val - x.val| < tieEps)).length : ℚ) - 1)) / 2⟩ : WItem)) =
          WItem.sign := rfl
      rw [hcomp, ← List.map_append, List.takeWhile_append_dropWhile]

lemma assignRanksFuel_rank_sum (fuel : ℕ) :
    ∀ (r : ℚ) (l : List WItem), l.length ≤ fuel →
      ((assignRanksFuel fuel r l).map WItem.rank).sum =
        (l.length : ℚ) * r + (l.length : ℚ) * ((l.length : ℚ) - 1) / 2 := by
  induction fuel with
  | zero =>
    intro r l h
    have : l = [] := List.length_eq_zero.mp (Nat.le_zero.mp h)
    subst this
    simp [assignRanksFuel]
  | succ f ih =>
    intro r l h
    match l with
    | [] => simp [assignRanksFuel]
    | x :: xs =>
      have hx : (fun it => decide (|it.val - x.val| < tieEps)) x = true := by
        simp only [decide_eq_true_eq]
        exact wilcoxon_head_in_run x
      simp only [assignRanksFuel]
      rw [List.map_append, List.sum_append, List.map_map]
      have hlen : (((x :: xs).dropWhile fun it => decide (|it.val - x.val| < tieEps)).length
          ≤ f) := by
        have := dropWhile_length_le_tail (fun it => decide (|it.val - x.val| < tieEps)) x xs hx
        have hxs : xs.length ≤ f := by
          simpa using Nat.le_of_succ_le_succ (by simpa using h)
        omega
      rw [ih _ _ hlen]
      have hcomp : (WItem.rank ∘ fun it : WItem =>
          (⟨it.val, it.sign, it.idx,
            (r + (r + (((x :: xs).takeWhile fun it =>
              decide (|it.val - x.val| < tieEps)).length : ℚ) - 1)) / 2⟩ : WItem)) =
          (fun _ : WItem =>
            (r + (r + (((x :: xs).takeWhile fun it =>
              decide (|it.val - x.val| < tieEps)).length : ℚ) - 1)) / 2) := rfl
      rw [hcomp, List.map_const', List.sum_replicate, nsmul_eq_mul]
      have hsplit := congrArg List.length
        (List.takeWhile_append_dropWhile
          (p := fun it => decide (|it.val - x.val| < tieEps)) (l := x :: xs))
      rw [List.length_append] at hsplit
      have hm : ((x :: xs).length : ℚ) =
          (((x :: xs).takeWhile fun it => decide (|it.val - x.val| < tieEps)).length : ℚ) +
          (((x :: xs).dropWhile fun it => decide (|it.val - x.val| < tieEps)).length : ℚ) := by
        exact_mod_cast congrArg (Nat.cast : ℕ → ℚ) hsplit.symm
      rw [hm]
      ring

lemma wilcoxonSignedRank_n_eq (a b : List ℚ) :
    (wilcoxonSignedRank a b).n = (wilcoxonNonZero a b).length := by
  unfold wilcoxonSignedRank
  by_cases h : (wilcoxonNonZero a b).length = 0
  · rw [if_pos h]
    exact h.symm
  · rw [if_neg h]

lemma wilcoxonSignedRank_W_eq (a b : List ℚ) (h : (wilcoxonNonZero a b).length ≠ 0) :
    (wilcoxonSignedRank a b).W = wilcoxonWPlus a b := by
  unfold wilcoxonSignedRank
  rw [if_neg h]

lemma wilcoxonSignedRank_z_eq (a b : List ℚ) (h : (wilcoxonNonZero a b).length ≠ 0) :
    (wilcoxonSignedRank a b).z =
      ((wilcoxonWPlus a b : ℝ) - ((expectedWOf (wilcoxonNonZero a b).length : ℚ) : ℝ) -
        (if expectedWOf (wilcoxonNonZero a b).length < wilcoxonWPlus a b
          then (0.5 : ℝ) else -0.5)) /
      Real.sqrt ((varWOf (wilcoxonNonZero a b).length : ℚ) : ℝ) := by
  unfold wilcoxonSignedRank
  rw [if_neg h]

/-- C3 (counterexample): for a = [3, 0, 0], b = [0, 1, 2] the retained
differences are [3, -1, -2], so `W⁺ = 3 = n(n+1)/4 = E[W]` — yet `z > 0`
(the code subtracts `-0.5` when `W⁺ = E[W]`, giving `z = 0.5/√Var`), refuting
the claim that the sign term vanishes and `z = 0` at `W⁺ = E[W]`. -/
theorem wilcoxon_z_nonzero_at_expected_tie :
    (wilcoxonSignedRank [3, 0, 0] [0, 1, 2]).W =
      ((wilcoxonSignedRank [3, 0, 0] [0, 1, 2]).n : ℚ) *
        (((wilcoxonSignedRank [3, 0, 0] [0, 1, 2]).n : ℚ) + 1) / 4 ∧
    0 < (wilcoxonSignedRank [3, 0, 0] [0, 1, 2]).z := by
  have hnz : wilcoxonNonZero [3, 0, 0] [0, 1, 2] = [3, -1, -2] := by
    norm_num [wilcoxonNonZero, tieEps]
  have hlen : (wilcoxonNonZero [3, 0, 0] [0, 1, 2]).length ≠ 0 := by
    rw [hnz]
    simp
  have hW : wilcoxonWPlus [3, 0, 0] [0, 1, 2] = 3 := by
    norm_num [wilcoxonWPlus, wilcoxonRanked, hnz, wilcoxonItems, sortWItems,
      List.insertionSort, List.orderedInsert, assignRanksFuel, tieEps,
      List.takeWhile, List.dropWhile, List.enum, List.enumFrom]
  constructor
  · rw [wilcoxonSignedRank_W_eq _ _ hlen, wilcoxonSignedRank_n_eq, hnz, hW]
    norm_num
  · rw [wilcoxonSignedRank_z_eq _ _ hlen, hnz, hW]
    have hE : expectedWOf ([3, -1, -2] : List ℚ).length = 3 := by
      norm_num [expectedWOf]
    have hV : varWOf ([3, -1, -2] : List ℚ).length = 7 / 2 := by
      norm_num [varWOf]
    rw [hE, hV, if_neg (by norm_num)]
    have hnum : ((3 : ℚ) : ℝ) - ((3 : ℚ) : ℝ) - (-0.5) = 0.5 := by norm_num
    rw [hnum]
    exact div_pos (by norm_num) (Real.sqrt_pos.mpr (by norm_num))

/-- C3 (amended): for n ≥ 1 retained differences the standardized statistic is
`z = (W⁺ - n(n+1)/4 - c) / √(n(n+1)(2n+1)/24)` where the continuity term `c`
is `+0.5` when `W⁺ > E[W]` and `-0.5` otherwise — including at `W⁺ = E[W]`,
where the code therefore yields `z = 0.5/√Var`, not 0. -/
theorem wilcoxon_z_standardization (a b : List ℚ) (h : wilcoxonNonZero a b ≠ []) :
    (wilcoxonSignedRank a b).z =
      (((wilcoxonSignedRank a b).W : ℝ) -
        ((((wilcoxonSignedRank a b).n : ℚ) * (((wilcoxonSignedRank a b).n : ℚ) + 1) / 4 : ℚ) : ℝ) -
        (if (((wilcoxonSignedRank a b).n : ℚ) * (((wilcoxonSignedRank a b).n : ℚ) + 1) / 4 : ℚ) <
            (wilcoxonSignedRank a b).W then (0.5 : ℝ) else -0.5)) /
      Real.sqrt ((((wilcoxonSignedRank a b).n : ℚ) * (((wilcoxonSignedRank a b).n : ℚ) + 1) *
        (2 * ((wilcoxonSignedRank a b).n : ℚ) + 1) / 24 : ℚ) : ℝ) := by
  have hlen : (wilcoxonNonZero a b).length ≠ 0 := fun hl => h (List.length_eq_zero.mp hl)
  rw [wilcoxonSignedRank_z_eq a b hlen, wilcoxonSignedRank_W_eq a b hlen,
    wilcoxonSignedRank_n_eq]
  rfl

/-- Witness for C3: the standardization formula applied at a = [1, 2],
b = [0, 0], where the retained differences [1, 2] are nonempty. -/
theorem wilcoxon_z_standardization_witness :
    (wilcoxonSignedRank [1, 2] [0, 0]).z =
      (((wilcoxonSignedRank [1, 2] [0, 0]).W : ℝ) -
        ((((wilcoxonSignedRank [1, 2] [0, 0]).n : ℚ) *
          (((wilcoxonSignedRank [1, 2] [0, 0]).n : ℚ) + 1) / 4 : ℚ) : ℝ) -
        (if (((wilcoxonSignedRank [1, 2] [0, 0]).n : ℚ) *
            (((wilcoxonSignedRank [1, 2] [0, 0]).n : ℚ) + 1) / 4 : ℚ) <
            (wilcoxonSignedRank [1, 2] [0, 0]).W then (0.5 : ℝ) else -0.5)) /
      Real.sqrt ((((wilcoxonSignedRank [1, 2] [0, 0]).n : ℚ) *
        (((wilcoxonSignedRank [1, 2] [0, 0]).n : ℚ) + 1) *
        (2 * ((wilcoxonSignedRank [1, 2] [0, 0]).n : ℚ) + 1) / 24 : ℚ) : ℝ) :=
  wilcoxon_z_standardization [1, 2] [0, 0] (by
    have h : wilcoxonNonZero [1, 2] [0, 0] = [1, 2] := by
      norm_num [wilcoxonNonZero, tieEps]
    rw [h]
    simp)

/-! ### C8: zero-difference exclusion and the all-positive rank sum -/

/-- C8: differences with absolute value below 1e-10 are excluded and `n` is
the count of survivors (with the fixed `{W = 0, z = 0, p = 1, n = 0}` result
when none survive); when every retained difference is positive, `W⁺` is the
full rank sum n(n+1)/2; in particular `W⁺ = 15` for a = [10, 12, 14, 9, 11],
b = [9, 11, 10, 8, 9]. -/
theorem wilcoxon_exclusion_and_rank_sum :
    (∀ a b : List ℚ, wilcoxonNonZero a b = [] →
      wilcoxonSignedRank a b = ⟨0, 0, 1, 0⟩) ∧
    (∀ a b : List ℚ, (wilcoxonSignedRank a b).n = (wilcoxonNonZero a b).length) ∧
    (∀ a b : List ℚ, wilcoxonNonZero a b ≠ [] → (∀ d ∈ wilcoxonNonZero a b, 0 < d) →
      (wilcoxonSignedRank a b).W =
        ((wilcoxonNonZero a b).length : ℚ) * (((wilcoxonNonZero a b).length : ℚ) + 1) / 2) ∧
    (wilcoxonSignedRank [10, 12, 14, 9, 11] [9, 11, 10, 8, 9]).W = 15 := by
  have hmain : ∀ a b : List ℚ, wilcoxonNonZero a b ≠ [] →
      (∀ d ∈ wilcoxonNonZero a b, 0 < d) →
      (wilcoxonSignedRank a b).W =
        ((wilcoxonNonZero a b).length : ℚ) *
          (((wilcoxonNonZero a b).length : ℚ) + 1) / 2 := by
    intro a b h hpos
    have hlen : (wilcoxonNonZero a b).length ≠ 0 := fun hl => h (List.length_eq_zero.mp hl)
    rw [wilcoxonSignedRank_W_eq a b hlen]
    set items := sortWItems (wilcoxonItems (wilcoxonNonZero a b)) with hitems
    have hperm : items.Perm (wilcoxonItems (wilcoxonNonZero a b)) :=
      List.perm_insertionSort _ _
    have hsigns : ∀ it ∈ wilcoxonRanked a b, (0 : ℤ) < it.sign := by
      intro it hit
      have hmem : it.sign ∈ (wilcoxonRanked a b).map WItem.sign :=
        List.mem_map_of_mem WItem.sign hit
      rw [wilcoxonRanked, assignRanksFuel_map_sign items.length 1 items le_rfl] at hmem
      have hmem2 : it.sign ∈ (wilcoxonItems (wilcoxonNonZero a b)).map WItem.sign :=
        (hperm.map WItem.sign).mem_iff.mp hmem
      simp only [wilcoxonItems, List.map_map, List.mem_map] at hmem2
      obtain ⟨q, hq, hsgn⟩ := hmem2
      have hq2 : q.2 ∈ wilcoxonNonZero a b := by
        have hmm : q.2 ∈ (wilcoxonNonZero a b).enum.map Prod.snd :=
          List.mem_map_of_mem Prod.snd hq
        rwa [List.enum_map_snd] at hmm
      have hqpos := hpos q.2 hq2
      have : (WItem.sign ∘ fun q : ℕ × ℚ =>
          (⟨|q.2|, if 0 < q.2 then 1 else -1, q.1, 0⟩ : WItem)) q =
          if 0 < q.2 then 1 else -1 := rfl
      rw [this, if_pos hqpos] at hsgn
      omega
    have hfilter : (wilcoxonRanked a b).filter (fun it => decide (0 < it.sign)) =
        wilcoxonRanked a b := by
      rw [List.filter_eq_self]
      intro it hit
      simpa using hsigns it hit
    rw [wilcoxonWPlus, hfilter]
    have hsum := assignRanksFuel_rank_sum items.length 1 items le_rfl
    rw [wilcoxonRanked] at *
    rw [hsum]
    have hlen2 : items.length = (wilcoxonNonZero a b).length := by
      rw [hitems, sortWItems, List.length_insertionSort, wilcoxonItems,
        List.length_map, List.enum_length]
    rw [hlen2]
    ring
  refine ⟨?_, wilcoxonSignedRank_n_eq, hmain, ?_⟩
  · intro a b h
    have : (wilcoxonNonZero a b).length = 0 := by rw [h]; rfl
    unfold wilcoxonSignedRank
    rw [if_pos this]
  · have hnz : wilcoxonNonZero [10, 12, 14, 9, 11] [9, 11, 10, 8, 9] =
        [1, 1, 4, 1, 2] := by
      norm_num [wilcoxonNonZero, tieEps]
    have hne : wilcoxonNonZero [10, 12, 14, 9, 11] [9, 11, 10, 8, 9] ≠ [] := by
      rw [hnz]
      simp
    rw [hmain _ _ hne (by rw [hnz]; intro d hd; fin_cases hd <;> norm_num), hnz]
    norm_num

/-- Witness for C8: the all-positive rank-sum conjunct applied at the concrete
inputs of the claim, with both hypotheses discharged by evaluation. -/
theorem wilcoxon_exclusion_and_rank_sum_witness :
    (wilcoxonSignedRank [10, 12, 14, 9, 11] [9, 11, 10, 8, 9]).W =
      ((wilcoxonNonZero [10, 12, 14, 9, 11] [9, 11, 10, 8, 9]).length : ℚ) *
        (((wilcoxonNonZero [10, 12, 14, 9, 11] [9, 11, 10, 8, 9]).length : ℚ) + 1) / 2 :=
  wilcoxon_exclusion_and_rank_sum.2.2.1 [10, 12, 14, 9, 11] [9, 11, 10, 8, 9]
    (by
      have hnz : wilcoxonNonZero [10, 12, 14, 9, 11] [9, 11, 10, 8, 9] =
          [1, 1, 4, 1, 2] := by
        norm_num [wilcoxonNonZero, tieEps]
      rw [hnz]
      simp)
    (by
      have hnz : wilcoxonNonZero [10, 12, 14, 9, 11] [9, 11, 10, 8, 9] =
          [1, 1, 4, 1, 2] := by
        norm_num [wilcoxonNonZero, tieEps]
      rw [hnz]
      intro d hd
      fin_cases hd <;> norm_num)

/-! ### C2: Spearman ranking and coefficient bounds -/

lemma ranks_eq (arr : List ℚ) : ranks arr =
    (List.insertionSort (fun x y => x.1 ≤ y.1)
      ((List.insertionSort (fun x y => x.2 < y.2 ∨ (x.2 = y.2 ∧ x.1 ≤ y.1))
        arr.enum).enum.map fun q => (q.2.1, q.1 + 1))).map Prod.snd := rfl

lemma ranks_length (arr : List ℚ) : (ranks arr).length = arr.length := by
  rw [ranks_eq, List.length_map, List.length_insertionSort, List.length_map,
    List.enum_length, List.length_insertionSort, List.enum_length]

lemma ranks_perm (arr : List ℚ) : (ranks arr).Perm (List.range' 1 arr.length) := by
  rw [ranks_eq]
  have key : (((List.insertionSort (fun x y => x.2 < y.2 ∨ (x.2 = y.2 ∧ x.1 ≤ y.1))
      arr.enum).enum.map fun q => (q.2.1, q.1 + 1)).map Prod.snd) =
      List.range' 1 arr.length := by
    rw [List.map_map]
    have h1 : (Prod.snd ∘ fun q : ℕ × (ℕ × ℚ) => (q.2.1, q.1 + 1)) =
        ((fun i => i + 1) ∘ Prod.fst) := rfl
    rw [h1, ← List.map_map, List.enum_map_fst, List.length_insertionSort,
      List.enum_length, List.range'_eq_map_range]
    exact List.map_congr_left fun i _ => Nat.add_comm i 1
  exact key ▸ ((List.perm_insertionSort _ _).map Prod.snd)

lemma map_sum_eq_range {α : Type*} (f : α → ℚ) (d : α) :
    ∀ l : List α, (l.map f).sum = ∑ i ∈ Finset.range l.length, f (l.getD i d)
  | [] => by simp
  | a :: l => by
    rw [List.map_cons, List.sum_cons, map_sum_eq_range f d l, List.length_cons,
      Finset.sum_range_succ']
    simp only [List.getD_cons_succ, List.getD_cons_zero]
    ring

lemma one_mem_ranks (arr : List ℚ) (h : 1 ≤ arr.length) : 1 ∈ ranks arr := by
  rw [(ranks_perm arr).mem_iff, List.mem_range']
  exact ⟨0, by omega, by omega⟩

lemma two_mem_ranks (arr : List ℚ) (h : 2 ≤ arr.length) : 2 ∈ ranks arr := by
  rw [(ranks_perm arr).mem_iff, List.mem_range']
  exact ⟨1, by omega, by omega⟩

lemma rankVar_pos (arr : List ℚ) (h : 2 ≤ arr.length) : 0 < rankVar (ranks arr) := by
  have hnn : ∀ q ∈ (ranks arr).map (fun v : ℕ => ((v : ℚ) - rankMean (ranks arr)) ^ 2), 0 ≤ q := by
    intro q hq
    simp only [List.mem_map] at hq
    obtain ⟨v, _, rfl⟩ := hq
    positivity
  have h1 : (((1 : ℕ) : ℚ) - rankMean (ranks arr)) ^ 2 ≤ rankVar (ranks arr) :=
    List.single_le_sum hnn _
      (List.mem_map_of_mem (fun v : ℕ => ((v : ℚ) - rankMean (ranks arr)) ^ 2)
        (one_mem_ranks arr (by omega)))
  have h2 : (((2 : ℕ) : ℚ) - rankMean (ranks arr)) ^ 2 ≤ rankVar (ranks arr) :=
    List.single_le_sum hnn _
      (List.mem_map_of_mem (fun v : ℕ => ((v : ℚ) - rankMean (ranks arr)) ^ 2)
        (two_mem_ranks arr h))
  push_cast at h1 h2
  nlinarith [h1, h2, sq_nonneg (2 * rankMean (ranks arr) - 3)]

lemma spearmanCov_sq_le (x y : List ℚ) (hlen : x.length = y.length) :
    spearmanCov x y ^ 2 ≤ rankVar (ranks x) * rankVar (ranks y) := by
  have hx : rankVar (ranks x) = ∑ i ∈ Finset.range (ranks x).length,
      (((ranks x).getD i 0 : ℚ) - rankMean (ranks x)) ^ 2 :=
    map_sum_eq_range (fun v : ℕ => ((v : ℚ) - rankMean (ranks x)) ^ 2) 0 (ranks x)
  have hy : rankVar (ranks y) = ∑ i ∈ Finset.range (ranks x).length,
      (((ranks y).getD i 0 : ℚ) - rankMean (ranks y)) ^ 2 := by
    have hl : (ranks y).length = (ranks x).length := by
      rw [ranks_length, ranks_length, hlen]
    rw [show rankVar (ranks y) = ∑ i ∈ Finset.range (ranks y).length,
        (((ranks y).getD i 0 : ℚ) - rankMean (ranks y)) ^ 2 from
      map_sum_eq_range (fun v : ℕ => ((v : ℚ) - rankMean (ranks y)) ^ 2) 0 (ranks y), hl]
  rw [hx, hy]
  exact Finset.sum_mul_sq_le_sq_mul_sq (Finset.range (ranks x).length) _ _

/-- C2 (counterexample): the constant series [5, 5] still receives the
distinct ranks 1, 2 (sort-position ranking, no tie averaging), so the rank
variance is nonzero, the denominator is positive, and against y = [1, 2] the
coefficient is a well-defined 1 — refuting "the result is undefined (a
division by zero) if either series is constant". -/
theorem spearman_constant_series_defined :
    ranks [5, 5] = [1, 2] ∧
    0 < Real.sqrt ((rankVar (ranks [5, 5]) * rankVar (ranks [1, 2]) : ℚ) : ℝ) ∧
    spearmanCorrelation [5, 5] [1, 2] = 1 := by
  have hrx : ranks [5, 5] = [1, 2] := by
    norm_num [ranks_eq, List.insertionSort, List.orderedInsert, List.enum,
      List.enumFrom]
  have hry : ranks [1, 2] = [1, 2] := by
    norm_num [ranks_eq, List.insertionSort, List.orderedInsert, List.enum,
      List.enumFrom]
  have hv : rankVar [1, 2] = 1 / 2 := by
    norm_num [rankVar, rankMean, mean, Finset.sum_range_succ]
  have hcov : spearmanCov [5, 5] [1, 2] = 1 / 2 := by
    simp only [spearmanCov, hrx, hry]
    norm_num [rankMean, mean, Finset.sum_range_succ]
  refine ⟨hrx, ?_, ?_⟩
  · rw [hrx, hry, hv]
    apply Real.sqrt_pos.mpr
    norm_num
  · unfold spearmanCorrelation
    rw [hrx, hry, hv, hcov]
    have h4 : (((1 / 2 * (1 / 2) : ℚ)) : ℝ) = (1 / 2 : ℝ) ^ 2 := by
      push_cast
      ring
    rw [h4, Real.sqrt_sq (by norm_num)]
    push_cast
    norm_num

/-- C2 (amended): ranking assigns each element the rank of its sort position
(rank 1 = smallest; the rank list is a permutation of 1..n) without averaging
ties; for equal-length series with n ≥ 2 the denominator is always positive —
even for constant series, since their ranks are still distinct — and the
coefficient lies in [-1, 1]. -/
theorem spearman_rank_positions_and_range (x y : List ℚ) (hlen : x.length = y.length)
    (h2 : 2 ≤ x.length) :
    (ranks x).Perm (List.range' 1 x.length) ∧
    0 < Real.sqrt ((rankVar (ranks x) * rankVar (ranks y) : ℚ) : ℝ) ∧
    -1 ≤ spearmanCorrelation x y ∧ spearmanCorrelation x y ≤ 1 := by
  have hpx := rankVar_pos x h2
  have hpy := rankVar_pos y (by omega)
  have hprod : 0 < rankVar (ranks x) * rankVar (ranks y) := mul_pos hpx hpy
  have hprodR : (0 : ℝ) < ((rankVar (ranks x) * rankVar (ranks y) : ℚ) : ℝ) := by
    exact_mod_cast hprod
  have hsq : 0 < Real.sqrt ((rankVar (ranks x) * rankVar (ranks y) : ℚ) : ℝ) :=
    Real.sqrt_pos.mpr hprodR
  have habs : |((spearmanCov x y : ℚ) : ℝ)| ≤
      Real.sqrt ((rankVar (ranks x) * rankVar (ranks y) : ℚ) : ℝ) := by
    rw [← Real.sqrt_sq_eq_abs]
    apply Real.sqrt_le_sqrt
    have hcast : ((spearmanCov x y : ℚ) : ℝ) ^ 2 = (((spearmanCov x y) ^ 2 : ℚ) : ℝ) := by
      push_cast
      ring
    rw [hcast]
    exact_mod_cast spearmanCov_sq_le x y hlen
  have hone : |spearmanCorrelation x y| ≤ 1 := by
    unfold spearmanCorrelation
    rw [abs_div, abs_of_nonneg (Real.sqrt_nonneg _)]
    exact div_le_one_of_le habs (Real.sqrt_nonneg _)
  exact ⟨ranks_perm x, hsq, (abs_le.mp hone).1, (abs_le.mp hone).2⟩

/-- Witness for C2: the amended theorem applied at x = [1, 2], y = [3, 4]. -/
theorem spearman_rank_positions_and_range_witness :
    (ranks [1, 2]).Perm (List.range' 1 2) ∧
    0 < Real.sqrt ((rankVar (ranks [1, 2]) * rankVar (ranks [3, 4]) : ℚ) : ℝ) ∧
    -1 ≤ spearmanCorrelation [1, 2] [3, 4] ∧ spearmanCorrelation [1, 2] [3, 4] ≤ 1 :=
  spearman_rank_positions_and_range [1, 2] [3, 4] rfl (by norm_num)

/-! ### C10: the normal-CDF approximation and two-tailed p-values stay in [0, 1] -/

end Eevan
